import Mathlib

/-!
Shallow embedding of the configuration-resolution library (package config,
file config.go) and verification of its specification.

The single routine of interest is Parse, which validates an environment
variable name space string, builds a two-option command line surface over the
Go standard flag package, and either returns display text (usage, help,
version) or substitutes environment variable placeholders into a JSON string
and decodes it into a caller supplied target.

Modelling conventions:
  - the process environment is a function from variable name to
    Option String (os.LookupEnv);
  - the command line argument list (os.Args with the program name removed)
    is a List String;
  - the two external collaborators that are opaque to this library, namely
    json.MarshalIndent on the configuration target and json.Unmarshal into
    it, are passed as explicit function parameters returning Except;
  - the configuration target (a Go interface value that may be nil) is an
    Option of an arbitrary type, and in-place mutation is modelled by
    returning the final target value;
  - Go strings are Lean Strings; character classes of the two regular
    expressions are stated on Char.toNat code points.
-/

namespace Config

/-- Character class [A-Z] of the source regular expressions. -/
def isUpperAZ (c : Char) : Bool := 65 ≤ c.toNat && c.toNat ≤ 90

/-- Character class [0-9] of the source regular expressions. -/
def isDigit09 (c : Char) : Bool := 48 ≤ c.toNat && c.toNat ≤ 57

/-- Character class [A-Z0-9] of the source regular expressions. -/
def isAlnumUp (c : Char) : Bool := isUpperAZ c || isDigit09 c

/-- Character class [A-Z0-9_] of the source regular expressions
(95 is the code point of the underscore). -/
def isNameChar (c : Char) : Bool := isAlnumUp c || c.toNat = 95

/-- Acceptance of the regular expression fragment [A-Z0-9_]*?[A-Z0-9] on a
whole character list: every character but the last is in [A-Z0-9_] and the
last is in [A-Z0-9]. For a fully anchored match the lazy quantifier of the
source pattern accepts exactly the same strings as a greedy one. -/
def tailMatch : List Char → Bool
  | [] => false
  | [c] => isAlnumUp c
  | c :: c' :: cs => isNameChar c && tailMatch (c' :: cs)

/-- Acceptance of the name shape [A-Z][A-Z0-9_]*?[A-Z0-9] on a whole
character list (shared by both source regular expressions). -/
def nameMatchL : List Char → Bool
  | [] => false
  | c :: cs => isUpperAZ c && tailMatch cs

/-- envVarPrefixRegex of config.go, the anchored pattern
A[A-Z][A-Z0-9_]*?[A-Z0-9]z (with A and z the anchors), as a whole-string
matcher, exactly what regexp.MatchString computes for it. -/
def envVarPrefixMatch (s : String) : Bool := nameMatchL s.data

/-- strings.ToUpper restricted to the ASCII range, the only range any
claim exercises: Char.toUpper maps a lowercase ASCII letter to its
uppercase form and fixes everything else. -/
def goToUpper (s : String) : String := String.mk (s.data.map Char.toUpper)

/-- Underscore test used by strings.Trim(s, "_"). -/
def isUnderscore (c : Char) : Bool := c.toNat = 95

/-- strings.Trim(s, "_"): remove leading and trailing underscores. -/
def goTrimUnderscores (s : String) : String :=
  String.mk (((s.data.dropWhile isUnderscore).reverse.dropWhile isUnderscore).reverse)

/-- The prefix normalisation of Parse (config.go line 109):
strings.Trim(strings.ToUpper(envVarPrefix), "_") + "_". -/
def normalizePrefix (s : String) : String := goTrimUnderscores (goToUpper s) ++ "_"

/-- EnvWithPrefix of config.go: returns the key builder (prefix prepended)
and the environment reader with default (os.LookupEnv based). -/
def EnvWithPrefix (env : String → Option String) (pfx : String) :
    (String → String) × (String → String → String) :=
  (fun key => pfx ++ key,
   fun key defVal => match env (pfx ++ key) with
     | some val => val
     | none => defVal)

/-- strings.TrimPrefix: drop pre when it is a prefix of s, else return s. -/
def goTrimPref (s pre : String) : String :=
  if pre.data.isPrefixOf s.data then String.mk (s.data.drop pre.data.length) else s

/-- strings.TrimSuffix: drop suf when it is a suffix of s, else return s. -/
def goTrimSuf (s suf : String) : String :=
  if suf.data.isSuffixOf s.data then String.mk (s.data.take (s.data.length - suf.data.length)) else s

/-- sanitizePlaceholderToken of config.go: trim the token of the leading
dollar-brace and the trailing brace. -/
def sanitizePlaceholderToken (envvar : String) : String :=
  goTrimSuf (goTrimPref envvar "$\x7b") "\x7d"

/-- The opening brace character. -/
def lbraceChar : Char := Char.ofNat 123

/-- The closing brace character. -/
def rbraceChar : Char := Char.ofNat 125

/-- One attempted match of placeHolderRegex at the head of the text. The
pattern is dollar, open brace, a name accepted by nameMatchL, close brace.
Because the close brace is not in the name character class, the lazy
quantifier of the source pattern matches exactly the maximal run of name
characters following the open brace, and the match succeeds exactly when
that run is a valid name followed by a close brace. On success, returns the
name run and the text after the match. -/
def tryPlaceholder (l : List Char) : Option (List Char × List Char) :=
  match l with
  | c0 :: c1 :: rest =>
    if c0 = '$' ∧ c1 = lbraceChar ∧ nameMatchL (rest.takeWhile isNameChar) = true
        ∧ (rest.dropWhile isNameChar).head? = some rbraceChar then
      some (rest.takeWhile isNameChar, (rest.dropWhile isNameChar).tail)
    else none
  | _ => none

/-- placeHolderRegex.ReplaceAllStringFunc of config.go lines 161 to 165 on a
character list: scan left to right; at each position, if a placeholder
matches, emit the value of the environment variable named by the prefixed
sanitised token (empty string when undefined) and continue after the match
without rescanning the emitted value; otherwise emit the character and move
one position. The fuel argument only drives structural recursion; it never
runs out when it starts at the length of the text. -/
def substFuel (env : String → Option String) (npfx : String) : Nat → List Char → List Char
  | _, [] => []
  | 0, l => l
  | Nat.succ f, c :: cs =>
    match tryPlaceholder (c :: cs) with
    | some (run, tail) =>
      ((EnvWithPrefix env npfx).2
        (sanitizePlaceholderToken (String.mk ('$' :: lbraceChar :: (run ++ [rbraceChar])))) "").data
        ++ substFuel env npfx f tail
    | none => c :: substFuel env npfx f cs

/-- Placeholder substitution over the configuration string. -/
def substPlaceholders (env : String → Option String) (npfx : String) (s : String) : String :=
  String.mk (substFuel env npfx s.data.length s.data)

/-- Whitespace test of strings.TrimSpace, restricted to the ASCII space
characters (tab, line feed, vertical tab, form feed, carriage return,
space); no claim exercises the non ASCII space code points. -/
def isGoSpace (c : Char) : Bool :=
  c.toNat = 9 || c.toNat = 10 || c.toNat = 11 || c.toNat = 12 || c.toNat = 13 || c.toNat = 32

/-- strings.TrimSpace: remove leading and trailing white space. -/
def goTrimSpace (s : String) : String :=
  String.mk (((s.data.dropWhile isGoSpace).reverse.dropWhile isGoSpace).reverse)

/-- ReleaseInfo of config.go: build provenance metadata. -/
structure ReleaseInfo where
  GitCommit : String
  BuildTimestamp : String
  ReleaseVersion : String
  GoVersion : String
deriving DecidableEq, Repr

/-- The version text built by Parse (config.go lines 144 to 154): when the
info pointer is nil a zero ReleaseInfo is used, and fmt.Sprintln() is the
line feed. -/
def versionText (info : Option ReleaseInfo) : String :=
  let i := info.getD { GitCommit := "", BuildTimestamp := "", ReleaseVersion := "", GoVersion := "" }
  "Release: " ++ i.ReleaseVersion ++ "\n" ++ "Commit: " ++ i.GitCommit ++ "\n" ++
    "Build Time: " ++ i.BuildTimestamp ++ "\n" ++ "Built with: " ++ i.GoVersion ++ "\n"

/-- Outcome of FlagSet.Parse of the Go standard flag package: nil error,
flag.ErrHelp, or any other error carrying its message. -/
inductive FlagOutcome where
  | ok : FlagOutcome
  | help : FlagOutcome
  | err : String → FlagOutcome
deriving DecidableEq, Repr

/-- strconv.ParseBool of the Go standard library, used by the flag package
to set a boolean flag from an explicit equals-sign value. -/
def parseGoBool (s : String) : Option Bool :=
  if s = "1" ∨ s = "t" ∨ s = "T" ∨ s = "true" ∨ s = "TRUE" ∨ s = "True" then some true
  else if s = "0" ∨ s = "f" ∨ s = "F" ∨ s = "false" ∨ s = "FALSE" ∨ s = "False" then some false
  else none

/-- Split a flag token at its first equals sign, as the flag package does
after it has ruled out a leading equals sign: returns the name part and the
value part when an equals sign is present. -/
def splitAtEq : List Char → List Char × Option (List Char)
  | [] => ([], none)
  | c :: cs =>
    if c = '=' then ([], some cs)
    else
      ((splitAtEq cs).1.cons c, (splitAtEq cs).2)

/-- The usage string of the config option registered by Parse (config.go
line 130), built from the normalised prefix, the key builder applied to
DOMAIN, and the indented JSON example of the configuration target. -/
def cfgUsageText (npfx confRef : String) : String :=
  "JSON string describing the configuration options, JSON values can be placeholders for environment variables that start with '"
    ++ npfx ++ "' e.g '$\x7bDOMAIN\x7d' is replaced with the value of environment variable '"
    ++ npfx ++ "DOMAIN" ++ "', example: " ++ confRef ++ "."

/-- The usage text the flag set writes to its output buffer on a help
request or after an argument error: the Usage header of a flag set with an
empty name followed by the rendering of the two registered flags. The
rendering of flag defaults is abbreviated; no claim depends on the exact
bytes of this collaborator text. -/
def usageOutput (npfx confRef : String) : String :=
  "Usage:\n  -config string\n    \t" ++ cfgUsageText npfx confRef ++
    "\n  -version\n    \tPrints the version and exits\n"

/-- FlagSet.Parse of the Go standard flag package, for the flag set built by
Parse: flags config (string, with a default) and version (bool, default
false), ContinueOnError, output directed to a buffer. The state is the
config value, the version value and the output buffer. Walks parseOne:
stop without error at the end, at a token shorter than two characters, at a
token without a leading dash, or at the bare double dash; report bad flag
syntax for a name starting with a dash or an equals sign; split an explicit
value at the first equals sign; a defined string flag without an explicit
value takes the next argument and fails without one; a defined boolean flag
without an explicit value is set to true; an undefined name help or h
prints the usage and signals help; any other undefined name is an error.
Errors append the message and the usage text to the buffer. The fuel
argument only drives structural recursion; it never runs out when it starts
at the length of the argument list. -/
def parseLoopF (usage : String) : Nat → String → Bool → String → List String →
    String × Bool × String × FlagOutcome
  | _, cfg, ver, out, [] => (cfg, ver, out, .ok)
  | 0, cfg, ver, out, _ :: _ => (cfg, ver, out, .ok)
  | Nat.succ f, cfg, ver, out, s :: rest =>
    match s.data with
    | [] => (cfg, ver, out, .ok)
    | [_] => (cfg, ver, out, .ok)
    | c0 :: c1 :: cs =>
      if c0 = '-' then
        if c1 = '-' ∧ cs = [] then (cfg, ver, out, .ok)
        else
          match (if c1 = '-' then cs else c1 :: cs) with
          | [] => (cfg, ver, out, .ok)
          | n0 :: ns =>
            if n0 = '-' ∨ n0 = '=' then
              (cfg, ver, out ++ "bad flag syntax: " ++ s ++ "\n" ++ usage,
                .err ("bad flag syntax: " ++ s))
            else
              match splitAtEq (n0 :: ns) with
              | (nm, vOpt) =>
                if String.mk nm = "config" then
                  match vOpt with
                  | some v => parseLoopF usage f (String.mk v) ver out rest
                  | none =>
                    match rest with
                    | v :: rest2 => parseLoopF usage f v ver out rest2
                    | [] =>
                      (cfg, ver,
                        out ++ "flag needs an argument: -" ++ String.mk nm ++ "\n" ++ usage,
                        .err ("flag needs an argument: -" ++ String.mk nm))
                else if String.mk nm = "version" then
                  match vOpt with
                  | none => parseLoopF usage f cfg true out rest
                  | some v =>
                    match parseGoBool (String.mk v) with
                    | some b => parseLoopF usage f cfg b out rest
                    | none =>
                      (cfg, ver,
                        out ++ "invalid boolean value \"" ++ String.mk v ++
                          "\" for -version: parse error\n" ++ usage,
                        .err ("invalid boolean value \"" ++ String.mk v ++
                          "\" for -version: parse error"))
                else if String.mk nm = "help" ∨ String.mk nm = "h" then
                  (cfg, ver, out ++ usage, .help)
                else
                  (cfg, ver,
                    out ++ "flag provided but not defined: -" ++ String.mk nm ++ "\n" ++ usage,
                    .err ("flag provided but not defined: -" ++ String.mk nm))
      else (cfg, ver, out, .ok)

/-- The flag parsing stage of Parse: register config with its environment
derived default (config.go line 130) and version (line 132) on a fresh flag
set writing to an empty buffer, then run FlagSet.Parse on the argument
list. -/
def parseFlags (env : String → Option String) (npfx confRef : String) (args : List String) :
    String × Bool × String × FlagOutcome :=
  parseLoopF (usageOutput npfx confRef) args.length
    ((EnvWithPrefix env npfx).2 "CONFIG" "\x7b\x7d") false "" args

/-- Parse of config.go. Parameters beyond the four of the source function:
env is the process environment, args is os.Args with the program name
removed, marshal is json.MarshalIndent on a non nil configuration target
(a nil target marshals to null), unmarshal is json.Unmarshal into the
target. The result is the returned display text, the returned error message
(none for a nil error), and the final value of the caller owned
configuration target (in place mutation made explicit). -/
def Parse {α : Type} (env : String → Option String) (args : List String)
    (marshal : α → Except String String) (unmarshal : String → α → Except String α)
    (envVarPfx description : String) (info : Option ReleaseInfo) (conf : Option α) :
    String × Option String × Option α :=
  if envVarPrefixMatch envVarPfx then
    let npfx := normalizePrefix envVarPfx
    match (match conf with
           | none => Except.ok "null"
           | some c => marshal c) with
    | Except.error e => ("", some e, conf)
    | Except.ok confRef =>
      match parseFlags env npfx confRef args with
      | (cfgJSON, ver, out, outcome) =>
        match outcome with
        | FlagOutcome.help => (out, none, conf)
        | FlagOutcome.err e => (out, some e, conf)
        | FlagOutcome.ok =>
          if ver then (versionText info, none, conf)
          else
            match conf with
            | none => (out, none, none)
            | some c =>
              match unmarshal (goTrimSpace (substPlaceholders env npfx cfgJSON)) c with
              | Except.error e => ("", some e, some c)
              | Except.ok v => (out, none, some v)
  else
    ("", some ("environment variable prefix [" ++ envVarPfx ++
      "] must start with a letter then letters or underscores"), conf)

/-- The indented JSON example string Parse computes for a non nil
configuration target, as a function of the target value: Except.ok of a
plain rendering function. Quantifying over the rendering function lets the
theorems below hold for every marshalling behaviour that succeeds. -/
def confRefOf {α : Type} (m : α → String) (conf : Option α) : String :=
  match conf with
  | none => "null"
  | some c => m c

/-- The testConf structure of the repository test file: an integer id, a
string name, a boolean online flag. -/
structure TestConf where
  id : Int
  name : String
  online : Bool
deriving DecidableEq, Repr

/-- The environment of the repository test TestCliConfig: TEST_NAME is set
to Bob and nothing else is set. -/
def envTestCli : String → Option String :=
  fun k => if k = "TEST_NAME" then some "Bob" else none

/-- The configuration argument of the repository test TestCliConfig. -/
def cfgArgTestCli : String := "\x7b\"id\":1,\"name\":\"$\x7bNAME\x7d\",\"online\":true\x7d"

/-- Stand-in for json.MarshalIndent on the zero testConf value; the claims
evaluated with it do not depend on the example string it yields. -/
def marshalTestConf : TestConf → Except String String :=
  fun _ => Except.ok "\x7b \"id\": 0, \"name\": \"\", \"online\": false \x7d"

/-- Stand-in for json.Unmarshal into a testConf; the claims evaluated with
it never reach the decode step. -/
def unmarshalTestConf : String → TestConf → Except String TestConf :=
  fun _ c => Except.ok c

/-- The zero testConf value the repository test starts from. -/
def zeroTestConf : TestConf := { id := 0, name := "", online := false }

/-- An environment for the single-pass substitution check: TEST_AB holds a
value that itself looks like a placeholder for TEST_CD, and TEST_CD is
defined. -/
def envSinglePass : String → Option String :=
  fun k => if k = "TEST_AB" then some "$\x7bCD\x7d"
    else if k = "TEST_CD" then some "X" else none

/-- Two strings are equal when their character lists are. -/
theorem str_eq_of_data {s t : String} (h : s.data = t.data) : s = t := by
  cases s
  cases t
  exact congrArg String.mk h

/-- The character list of a concatenation is the concatenation of the
character lists. -/
theorem strData_append (s t : String) : (s ++ t).data = s.data ++ t.data := rfl

/-- C2. For every prefix string rejected by envVarPrefixRegex (whose
anchored language agrees with the spec pattern, the lazy quantifier being
irrelevant to a whole-string match), Parse returns empty display text and
exactly the formatted invalid-prefix error, leaves the target untouched,
and the result is the same for every environment, argument list and
collaborator, so no environment or argument access is attempted. -/
theorem c2_invalid_env_var_pfx {α : Type} (env : String → Option String) (args : List String)
    (marshal : α → Except String String) (unmarshal : String → α → Except String α)
    (envVarPfx desc : String) (info : Option ReleaseInfo) (conf : Option α)
    (h : envVarPrefixMatch envVarPfx = false) :
    Parse env args marshal unmarshal envVarPfx desc info conf =
      ("", some ("environment variable prefix [" ++ envVarPfx ++
        "] must start with a letter then letters or underscores"), conf) := by
  simp [Parse, h]

/-- Witness for C2 at the concrete prefix te-st, environment with TEST_NAME
set, and a nonempty argument list. -/
theorem c2_invalid_env_var_pfx_witness :
    envVarPrefixMatch "te-st" = false ∧
    Parse envTestCli ["-h"] marshalTestConf unmarshalTestConf "te-st" "" none
        (some zeroTestConf) =
      ("", some "environment variable prefix [te-st] must start with a letter then letters or underscores",
        some zeroTestConf) :=
  ⟨by decide,
   c2_invalid_env_var_pfx envTestCli ["-h"] marshalTestConf unmarshalTestConf "te-st" "" none
     (some zeroTestConf) (by decide)⟩

/-- C1. The code deviates from the claim: with prefix TEST, TEST_NAME set
to Bob and arguments -c followed by the JSON string, Parse built on the Go
flag package has no flag named c registered, so flag parsing fails with
the undefined-flag error and the configuration target is never written.
The substitution machinery itself would have produced the claimed Bob
binding, as the last conjunct shows on the resolved string. -/
theorem c1_short_config_flag_not_defined :
    (Parse envTestCli ["-c", cfgArgTestCli] marshalTestConf unmarshalTestConf "TEST" "" none
        (some zeroTestConf)).2.1 = some "flag provided but not defined: -c" ∧
    (Parse envTestCli ["-c", cfgArgTestCli] marshalTestConf unmarshalTestConf "TEST" "" none
        (some zeroTestConf)).2.2 = some zeroTestConf ∧
    substPlaceholders envTestCli (normalizePrefix "TEST") cfgArgTestCli =
      "\x7b\"id\":1,\"name\":\"Bob\",\"online\":true\x7d" := by
  refine ⟨rfl, rfl, by decide⟩

/-- C4. The code deviates from the claim for the short form: -v is not a
registered flag name, so Parse returns the undefined-flag error rather
than the version text; the long form --version returns exactly the claimed
byte shape, all four fields empty when the release info is absent, and
each field of a present release info inserted between the literal
labels. -/
theorem c4_version_flag_behavior :
    (Parse envTestCli ["-v"] marshalTestConf unmarshalTestConf "TEST" "" none
        (some zeroTestConf)).2.1 = some "flag provided but not defined: -v" ∧
    Parse envTestCli ["--version"] marshalTestConf unmarshalTestConf "TEST" "" none
        (some zeroTestConf) =
      ("Release: \nCommit: \nBuild Time: \nBuilt with: \n", none, some zeroTestConf) ∧
    ∀ (i : ReleaseInfo),
      Parse envTestCli ["--version"] marshalTestConf unmarshalTestConf "TEST" "" (some i)
          (some zeroTestConf) =
        ("Release: " ++ i.ReleaseVersion ++ "\n" ++ "Commit: " ++ i.GitCommit ++ "\n" ++
          "Build Time: " ++ i.BuildTimestamp ++ "\n" ++ "Built with: " ++ i.GoVersion ++ "\n",
          none, some zeroTestConf) := by
  refine ⟨rfl, rfl, fun i => ?_⟩
  rfl

/-- C8. For a valid prefix and a configuration target whose indented JSON
rendering fails, Parse returns empty text and the marshalling error
unmodified, for every argument list and environment alike: the failure
happens before any flag parsing. -/
theorem c8_marshal_failure {α : Type} (env : String → Option String) (args : List String)
    (marshal : α → Except String String) (unmarshal : String → α → Except String α)
    (envVarPfx desc : String) (info : Option ReleaseInfo) (c : α) (e : String)
    (h1 : envVarPrefixMatch envVarPfx = true) (h2 : marshal c = Except.error e) :
    Parse env args marshal unmarshal envVarPfx desc info (some c) = ("", some e, some c) := by
  simp [Parse, h1, h2]

/-- Witness for C8: a channel-valued target whose marshalling fails as in
the repository test, with version and config flags present and ignored. -/
theorem c8_marshal_failure_witness :
    envVarPrefixMatch "TEST" = true ∧
    Parse envTestCli ["--version"]
        (fun _ : Unit => (Except.error "json: unsupported type: chan int" : Except String String))
        (fun _ c => Except.ok c) "TEST" "" none (some ()) =
      ("", some "json: unsupported type: chan int", some ()) :=
  ⟨by decide,
   c8_marshal_failure envTestCli ["--version"]
     (fun _ : Unit => (Except.error "json: unsupported type: chan int" : Except String String))
     (fun _ c => Except.ok c) "TEST" "" none () "json: unsupported type: chan int"
     (by decide) rfl⟩

/-- C7 counterexample. The claim has the lowercase prefix test normalised
to TEST_ and proceeding through resolution; in the code, validation runs
before normalisation and its regular expression admits only uppercase
letters, so Parse rejects test with the invalid-prefix error and never
reaches normalisation, even though the normalisation expression itself
would map test to TEST_. -/
theorem c7_lowercase_pfx_rejected :
    envVarPrefixMatch "test" = false ∧
    normalizePrefix "test" = "TEST_" ∧
    Parse envTestCli [] marshalTestConf unmarshalTestConf "test" "" none (some zeroTestConf) =
      ("", some "environment variable prefix [test] must start with a letter then letters or underscores",
        some zeroTestConf) := by
  refine ⟨by decide, by decide, rfl⟩

/-- C5. In the configuration-parsing path (here: valid prefix TEST, the
configuration string bound on the command line, version flag unset), the
substituted configuration string is trimmed of surrounding whitespace and
handed to the decoder in place: a nil target skips decoding silently with
no error; a decoder error is returned unmodified with empty text and the
target untouched; a decoder success becomes the new target value. The
equality holds for every environment, configuration string, decoder and
target, so it pins down exactly which string reaches the decoder. -/
theorem c5_decode_step {α : Type} (env : String → Option String) (j : String)
    (m : α → String) (u : String → α → Except String α) (desc : String)
    (info : Option ReleaseInfo) (t : Option α) :
    Parse env ["--config", j] (fun a => Except.ok (m a)) u "TEST" desc info t =
      (match t with
       | none => ("", none, none)
       | some c =>
         match u (goTrimSpace (substPlaceholders env "TEST_" j)) c with
         | Except.error e => ("", some e, some c)
         | Except.ok v => ("", none, some v)) := by
  cases t with
  | none => rfl
  | some c => rfl

/-- C6. Precedence of the resolved configuration string: a value bound to
the config option on the command line (separate-argument or equals form)
wins for every environment, including one where the CONFIG variable is
set; with no arguments, the resolved string is the value of the
environment variable named prefix followed by CONFIG when set, and the
literal empty JSON object otherwise. -/
theorem c6_flag_env_precedence :
    (∀ (env : String → Option String) (npfx confRef v : String),
      (parseFlags env npfx confRef ["--config", v]).1 = v) ∧
    (∀ (env : String → Option String) (npfx confRef v : String),
      (parseFlags env npfx confRef ["--config=" ++ v]).1 = v) ∧
    (∀ (env : String → Option String) (npfx confRef : String),
      (parseFlags env npfx confRef []).1 =
        match env (npfx ++ "CONFIG") with
        | some w => w
        | none => "\x7b\x7d") := by
  refine ⟨fun env npfx confRef v => rfl, fun env npfx confRef v => rfl,
    fun env npfx confRef => rfl⟩

/-- C9. For every argument list: when flag parsing signals a help request,
Parse returns the parser's produced output text and no error; when it
signals any other error, Parse returns the produced output text together
with that error. In both cases the configuration target is untouched. -/
theorem c9_parse_outcome_paths {α : Type} (env : String → Option String) (args : List String)
    (m : α → String) (u : String → α → Except String α) (envVarPfx desc : String)
    (info : Option ReleaseInfo) (conf : Option α) (cfg : String) (ver : Bool) (out : String)
    (hq : envVarPrefixMatch envVarPfx = true) :
    (parseFlags env (normalizePrefix envVarPfx) (confRefOf m conf) args =
        (cfg, ver, out, FlagOutcome.help) →
      Parse env args (fun a => Except.ok (m a)) u envVarPfx desc info conf = (out, none, conf)) ∧
    (∀ e, parseFlags env (normalizePrefix envVarPfx) (confRefOf m conf) args =
        (cfg, ver, out, FlagOutcome.err e) →
      Parse env args (fun a => Except.ok (m a)) u envVarPfx desc info conf =
        (out, some e, conf)) := by
  constructor
  · intro hp
    cases conf with
    | none =>
      simp only [confRefOf] at hp
      simp [Parse, hq, hp]
    | some c =>
      simp only [confRefOf] at hp
      simp [Parse, hq, hp]
  · intro e hp
    cases conf with
    | none =>
      simp only [confRefOf] at hp
      simp [Parse, hq, hp]
    | some c =>
      simp only [confRefOf] at hp
      simp [Parse, hq, hp]

/-- Witness for C9: the help path at -h and the error path at the
undefined flag -x, both on a concrete flag set. -/
theorem c9_parse_outcome_paths_witness :
    Parse envTestCli ["-h"] (fun _ : Unit => Except.ok "null") (fun _ c => Except.ok c)
        "TEST" "" none (some ()) =
      (usageOutput "TEST_" "null", none, some ()) ∧
    Parse envTestCli ["-x"] (fun _ : Unit => Except.ok "null") (fun _ c => Except.ok c)
        "TEST" "" none (some ()) =
      ("flag provided but not defined: -x\n" ++ usageOutput "TEST_" "null",
        some "flag provided but not defined: -x", some ()) :=
  ⟨(c9_parse_outcome_paths envTestCli ["-h"] (fun _ : Unit => "null") (fun _ c => Except.ok c)
      "TEST" "" none (some ()) "\x7b\x7d" false (usageOutput "TEST_" "null") (by decide)).1 rfl,
   (c9_parse_outcome_paths envTestCli ["-x"] (fun _ : Unit => "null") (fun _ c => Except.ok c)
      "TEST" "" none (some ()) "\x7b\x7d" false
      ("flag provided but not defined: -x\n" ++ usageOutput "TEST_" "null") (by decide)).2
     "flag provided but not defined: -x" rfl⟩

/-- A character in the uppercase class is in the name class. -/
theorem isNameChar_of_upper {c : Char} (h : isUpperAZ c = true) : isNameChar c = true := by
  simp [isNameChar, isAlnumUp, h]

/-- A character in the alphanumeric class is in the name class. -/
theorem isNameChar_of_alnum {c : Char} (h : isAlnumUp c = true) : isNameChar c = true := by
  simp [isNameChar, h]

/-- Every character of a list accepted by tailMatch is in the name class. -/
theorem tailMatch_mem : ∀ (l : List Char), tailMatch l = true → ∀ c ∈ l, isNameChar c = true := by
  intro l
  induction l with
  | nil => simp [tailMatch]
  | cons c cs ih =>
    intro h d hd
    cases cs with
    | nil =>
      simp only [tailMatch] at h
      simp only [List.mem_singleton] at hd
      subst hd
      exact isNameChar_of_alnum h
    | cons e es =>
      simp only [tailMatch, Bool.and_eq_true] at h
      rcases List.mem_cons.mp hd with rfl | hd'
      · exact h.1
      · exact ih h.2 d hd'

/-- A list accepted by tailMatch ends in an alphanumeric character. -/
theorem tailMatch_last : ∀ (l : List Char), tailMatch l = true →
    ∃ c t, l.reverse = c :: t ∧ isAlnumUp c = true := by
  intro l
  induction l with
  | nil => simp [tailMatch]
  | cons c cs ih =>
    intro h
    cases cs with
    | nil =>
      simp only [tailMatch] at h
      exact ⟨c, [], by simp, h⟩
    | cons e es =>
      simp only [tailMatch, Bool.and_eq_true] at h
      obtain ⟨c0, t0, hrev, hal⟩ := ih h.2
      exact ⟨c0, t0 ++ [c], by simp [hrev], hal⟩

/-- Char.toUpper fixes every character of the name class, whose code
points all lie below the lowercase letters. -/
theorem toUpper_fixed {c : Char} (h : isNameChar c = true) : c.toUpper = c := by
  have hn : c.toNat ≤ 95 := by
    simp only [isNameChar, isAlnumUp, isUpperAZ, isDigit09, Bool.or_eq_true, Bool.and_eq_true,
      decide_eq_true_eq] at h
    omega
  simp only [Char.toUpper]
  rw [if_neg]
  omega

/-- Mapping Char.toUpper over a list of name class characters is the
identity. -/
theorem map_toUpper_id {l : List Char} (h : ∀ c ∈ l, isNameChar c = true) :
    l.map Char.toUpper = l := by
  induction l with
  | nil => rfl
  | cons c cs ih =>
    simp only [List.map_cons]
    rw [toUpper_fixed (h c (by simp)), ih (fun d hd => h d (by simp [hd]))]

/-- dropWhile does nothing on a list whose head fails the test. -/
theorem dropWhile_cons_false {p : Char → Bool} {c : Char} {cs : List Char} (h : p c = false) :
    List.dropWhile p (c :: cs) = c :: cs := by
  simp [List.dropWhile, h]

/-- C7 amended. After validation the prefix is normalised by uppercasing,
trimming leading and trailing underscores, and appending a single trailing
underscore; on every prefix that passes validation the uppercasing and the
trimming are identities (validation admits only uppercase letters, digits
and inner underscores), so normalisation is exactly the appending of one
underscore, for example TEST to TEST_. A lowercase prefix such as test
never reaches normalisation, as the counterexample theorem shows. -/
theorem c7_normalize_appends_underscore (s : String) (h : envVarPrefixMatch s = true) :
    normalizePrefix s = s ++ "_" := by
  unfold envVarPrefixMatch at h
  suffices htrim : goTrimUnderscores (goToUpper s) = s by
    rw [normalizePrefix, htrim]
  rcases hd : s.data with _ | ⟨c, cs⟩
  · rw [hd] at h
    simp [nameMatchL] at h
  · rw [hd] at h
    simp only [nameMatchL, Bool.and_eq_true] at h
    obtain ⟨hc, hcs⟩ := h
    have hmap : (goToUpper s).data = c :: cs := by
      have : (c :: cs).map Char.toUpper = c :: cs := by
        apply map_toUpper_id
        intro d hd'
        rcases List.mem_cons.mp hd' with rfl | hmem
        · exact isNameChar_of_upper hc
        · exact tailMatch_mem cs hcs d hmem
      simp [goToUpper, hd, this]
    have hfrontU : isUnderscore c = false := by
      simp only [isUpperAZ, Bool.and_eq_true, decide_eq_true_eq] at hc
      simp only [isUnderscore, decide_eq_false_iff_not]
      omega
    obtain ⟨c0, t0, hrev, hal⟩ := tailMatch_last cs hcs
    have hbackU : isUnderscore c0 = false := by
      simp only [isAlnumUp, isUpperAZ, isDigit09, Bool.or_eq_true, Bool.and_eq_true,
        decide_eq_true_eq] at hal
      simp only [isUnderscore, decide_eq_false_iff_not]
      omega
    have h1 : (c :: cs).reverse = c0 :: (t0 ++ [c]) := by
      rw [List.reverse_cons, hrev]
      simp
    apply str_eq_of_data
    show (((goToUpper s).data.dropWhile isUnderscore).reverse.dropWhile isUnderscore).reverse
      = s.data
    rw [hmap, hd, dropWhile_cons_false hfrontU, h1, dropWhile_cons_false hbackU, ← h1,
      List.reverse_reverse]

/-- Witness for the amended C7 at the concrete prefix TEST. -/
theorem c7_normalize_appends_underscore_witness :
    envVarPrefixMatch "TEST" = true ∧ normalizePrefix "TEST" = "TEST" ++ "_" :=
  ⟨by decide, c7_normalize_appends_underscore "TEST" (by decide)⟩

/-- A String rebuilt from its character list is itself. -/
theorem strMk_data (s : String) : String.mk s.data = s := rfl

/-- dropWhile never lengthens a list. -/
theorem dropWhile_len (p : Char → Bool) (l : List Char) :
    (l.dropWhile p).length ≤ l.length := by
  induction l with
  | nil => simp [List.dropWhile]
  | cons c cs ih =>
    by_cases h : p c = true
    · simp only [List.dropWhile, h, List.length_cons]
      omega
    · simp only [Bool.not_eq_true] at h
      simp [List.dropWhile, h]

/-- A successful placeholder match strictly shortens the remaining text. -/
theorem tryPlaceholder_some_len {l run tail : List Char}
    (h : tryPlaceholder l = some (run, tail)) : tail.length < l.length := by
  match l with
  | [] => simp [tryPlaceholder] at h
  | [c] => simp [tryPlaceholder] at h
  | c0 :: c1 :: rest =>
    simp only [tryPlaceholder] at h
    by_cases hc : c0 = '$' ∧ c1 = lbraceChar ∧ nameMatchL (rest.takeWhile isNameChar) = true
        ∧ (rest.dropWhile isNameChar).head? = some rbraceChar
    · rw [if_pos hc] at h
      simp only [Option.some.injEq, Prod.mk.injEq] at h
      have hlen := dropWhile_len isNameChar rest
      have hne : rest.dropWhile isNameChar ≠ [] := by
        intro hnil
        rw [hnil] at hc
        simp at hc
      rcases hdw : rest.dropWhile isNameChar with _ | ⟨c2, t⟩
      · exact absurd hdw hne
      · rw [hdw] at h hlen
        simp only [List.tail_cons] at h
        obtain ⟨-, h2⟩ := h
        subst h2
        simp only [List.length_cons] at *
        omega
    · rw [if_neg hc] at h
      simp at h

/-- Fuel never matters on the empty text. -/
theorem substFuel_nil (env : String → Option String) (p : String) (f : Nat) :
    substFuel env p f [] = [] := by
  cases f <;> rfl

/-- Unfolding of substFuel on nonempty text with nonzero fuel. -/
theorem substFuel_cons (env : String → Option String) (p : String) (f : Nat) (c : Char)
    (cs : List Char) :
    substFuel env p (Nat.succ f) (c :: cs) =
      match tryPlaceholder (c :: cs) with
      | some (run, tail) =>
        ((EnvWithPrefix env p).2
          (sanitizePlaceholderToken (String.mk ('$' :: lbraceChar :: (run ++ [rbraceChar])))) "").data
          ++ substFuel env p f tail
      | none => c :: substFuel env p f cs := rfl

/-- Any two sufficient fuels give the same substitution result. -/
theorem substFuel_congr (env : String → Option String) (p : String) :
    ∀ (f g : Nat) (l : List Char), l.length ≤ f → l.length ≤ g →
      substFuel env p f l = substFuel env p g l := by
  intro f
  induction f with
  | zero =>
    intro g l h1 _
    have hl : l = [] := by
      cases l
      · rfl
      · simp at h1
    subst hl
    simp [substFuel_nil]
  | succ f ih =>
    intro g l h1 h2
    cases l with
    | nil => simp [substFuel_nil]
    | cons c cs =>
      cases g with
      | zero => simp at h2
      | succ g' =>
        rcases htp : tryPlaceholder (c :: cs) with _ | ⟨run, tail⟩
        · simp only [substFuel_cons, htp]
          rw [ih g' cs (by simp at h1; omega) (by simp at h2; omega)]
        · have hlt := tryPlaceholder_some_len htp
          simp only [substFuel_cons, htp]
          rw [ih g' tail (by simp at h1 hlt ⊢; omega) (by simp at h2 hlt ⊢; omega)]

/-- takeWhile and dropWhile on a run of accepted characters followed by a
rejected character cut exactly at that character. -/
theorem takeWhile_run {p : Char → Bool} : ∀ (l : List Char) (c : Char) (r : List Char),
    l.all p = true → p c = false →
    (l ++ c :: r).takeWhile p = l ∧ (l ++ c :: r).dropWhile p = c :: r := by
  intro l
  induction l with
  | nil =>
    intro c r _ hc
    constructor <;> simp [List.takeWhile, List.dropWhile, hc]
  | cons a as ih =>
    intro c r hall hc
    simp only [List.all_cons, Bool.and_eq_true] at hall
    have hrec := ih c r hall.2 hc
    constructor
    · simp only [List.cons_append, List.takeWhile, hall.1]
      exact congrArg (List.cons a) hrec.1
    · simp only [List.cons_append, List.dropWhile, hall.1]
      exact hrec.2

/-- No placeholder matches at a character other than the dollar sign. -/
theorem tryPlaceholder_no_dollar {c : Char} (h : ¬ c = '$') (t : List Char) :
    tryPlaceholder (c :: t) = none := by
  cases t with
  | nil => rfl
  | cons c1 rest =>
    simp only [tryPlaceholder]
    rw [if_neg (fun hh => h hh.1)]

/-- sanitizePlaceholderToken recovers the inner name from a full
placeholder token. -/
theorem sanitize_token (run : List Char) :
    sanitizePlaceholderToken (String.mk ('$' :: lbraceChar :: (run ++ [rbraceChar]))) =
      String.mk run := by
  have h1 : goTrimPref (String.mk ('$' :: lbraceChar :: (run ++ [rbraceChar]))) "$\x7b" =
      String.mk (run ++ [rbraceChar]) := by
    unfold goTrimPref
    rw [if_pos]
    · rfl
    · show ("$\x7b" : String).data.isPrefixOf ('$' :: lbraceChar :: (run ++ [rbraceChar])) = true
      simp only [List.isPrefixOf]
      simp [lbraceChar]
  have h2 : goTrimSuf (String.mk (run ++ [rbraceChar])) "\x7d" = String.mk run := by
    unfold goTrimSuf
    rw [if_pos]
    · apply congrArg String.mk
      simp
    · show ("\x7d" : String).data.isSuffixOf (run ++ [rbraceChar]) = true
      simp [List.isSuffixOf, List.isPrefixOf, rbraceChar]
  unfold sanitizePlaceholderToken
  rw [h1, h2]

/-- A name accepted by nameMatchL consists of name class characters. -/
theorem nameMatch_all {l : List Char} (h : nameMatchL l = true) : l.all isNameChar = true := by
  cases l with
  | nil => simp [nameMatchL] at h
  | cons c cs =>
    simp only [nameMatchL, Bool.and_eq_true] at h
    simp only [List.all_cons, Bool.and_eq_true]
    refine ⟨isNameChar_of_upper h.1, ?_⟩
    rw [List.all_eq_true]
    intro d hd
    exact tailMatch_mem cs h.2 d hd

/-- The substitution scan over a dollar-free segment, a placeholder with a
valid name, and an arbitrary remainder: the segment is copied, the
placeholder is replaced by the environment value of the prefixed name
(empty if undefined), and the scan continues on the remainder only. -/
theorem substFuel_place (env : String → Option String) (p : String) (n : List Char)
    (hn : nameMatchL n = true) :
    ∀ (a : List Char) (f : Nat) (b : List Char),
      (a ++ '$' :: lbraceChar :: (n ++ rbraceChar :: b)).length ≤ f →
      a.all (fun c => !decide (c = '$')) = true →
      substFuel env p f (a ++ '$' :: lbraceChar :: (n ++ rbraceChar :: b)) =
        a ++ ((match env (p ++ String.mk n) with
               | some v => v
               | none => "").data ++ substFuel env p b.length b) := by
  intro a
  induction a with
  | nil =>
    intro f b hf _
    cases f with
    | zero => simp at hf
    | succ f' =>
      simp only [List.nil_append] at hf ⊢
      have htw := takeWhile_run n rbraceChar b (nameMatch_all hn) (by decide)
      have htp : tryPlaceholder ('$' :: lbraceChar :: (n ++ rbraceChar :: b)) = some (n, b) := by
        show (if ('$' : Char) = '$' ∧ lbraceChar = lbraceChar ∧
            nameMatchL ((n ++ rbraceChar :: b).takeWhile isNameChar) = true ∧
            ((n ++ rbraceChar :: b).dropWhile isNameChar).head? = some rbraceChar then
          some ((n ++ rbraceChar :: b).takeWhile isNameChar,
            ((n ++ rbraceChar :: b).dropWhile isNameChar).tail)
          else none) = some (n, b)
        rw [if_pos ⟨rfl, rfl, by rw [htw.1]; exact hn, by rw [htw.2]; rfl⟩, htw.1, htw.2]
        rfl
      simp only [substFuel_cons, htp, sanitize_token]
      have henv : (EnvWithPrefix env p).2 (String.mk n) "" =
          (match env (p ++ String.mk n) with
           | some v => v
           | none => "") := rfl
      rw [henv]
      congr 1
      apply substFuel_congr
      · simp only [List.length_cons, List.length_append] at hf ⊢
        omega
      · exact le_refl _
  | cons c a' ih =>
    intro f b hf hall
    simp only [List.all_cons, Bool.and_eq_true] at hall
    have hc : ¬ c = '$' := by simpa using hall.1
    cases f with
    | zero => simp at hf
    | succ f' =>
      simp only [List.cons_append] at hf ⊢
      simp only [substFuel_cons, tryPlaceholder_no_dollar hc]
      rw [ih f' b (by simp only [List.length_cons] at hf; omega) hall.2]

/-- C3. First conjunct: in the configuration string, a placeholder of the
form dollar, open brace, a name matching the placeholder pattern, close
brace, preceded by any dollar-free text and followed by anything, is
replaced by the value of the environment variable named prefix plus inner
name (empty string when undefined), the preceding text is copied verbatim
and scanning continues on the following text only, for every environment,
prefix and strings; iterating the equation covers every non-overlapping
match when the text left of each placeholder is dollar-free. Second
conjunct: substitution is single pass; with TEST_AB holding a value that
itself spells a placeholder for the defined variable TEST_CD, one round
leaves that value verbatim and does not substitute it again. -/
theorem c3_placeholder_substitution :
    (∀ (env : String → Option String) (p a n b : String),
      a.data.all (fun c => !decide (c = '$')) = true →
      nameMatchL n.data = true →
      substPlaceholders env p (a ++ "$\x7b" ++ n ++ "\x7d" ++ b) =
        a ++ (match env (p ++ n) with
              | some v => v
              | none => "") ++ substPlaceholders env p b) ∧
    substPlaceholders envSinglePass "TEST_" "j$\x7bAB\x7dk" = "j$\x7bCD\x7dk" := by
  constructor
  · intro env p a n b hall hn
    apply str_eq_of_data
    have hdata : (a ++ "$\x7b" ++ n ++ "\x7d" ++ b).data =
        a.data ++ '$' :: lbraceChar :: (n.data ++ rbraceChar :: b.data) := by
      simp [strData_append, lbraceChar, rbraceChar, List.append_assoc]
    simp only [substPlaceholders, strData_append, strMk_data, hdata]
    rw [substFuel_place env p n.data hn a.data
      (a.data ++ '$' :: lbraceChar :: (n.data ++ rbraceChar :: b.data)).length
      b.data (le_refl _) hall]
    simp [strMk_data, List.append_assoc]
  · decide

/-- Witness for C3 at the test environment: the placeholder for NAME
between dollar-free text becomes Bob. -/
theorem c3_placeholder_substitution_witness :
    ("q".data.all (fun c => !decide (c = '$')) = true) ∧
    nameMatchL "NAME".data = true ∧
    substPlaceholders envTestCli "TEST_" "q$\x7bNAME\x7dr" = "qBobr" :=
  ⟨by decide, by decide,
   c3_placeholder_substitution.1 envTestCli "TEST_" "q" "NAME" "r" (by decide) (by decide)⟩

set_option maxHeartbeats 1600000 in
/-- When flag parsing ends without error, nothing was written to the
output buffer: the final buffer equals the initial one. -/
theorem parseLoopF_ok_out (usage : String) :
    ∀ (f : Nat) (cfg : String) (ver : Bool) (out : String) (args : List String)
      (c' : String) (v' : Bool) (o' : String),
      parseLoopF usage f cfg ver out args = (c', v', o', FlagOutcome.ok) → o' = out := by
  intro f
  induction f with
  | zero =>
    intro cfg ver out args c' v' o' h
    cases args with
    | nil =>
      simp only [parseLoopF, Prod.mk.injEq] at h
      exact h.2.2.1.symm
    | cons s rest =>
      simp only [parseLoopF, Prod.mk.injEq] at h
      exact h.2.2.1.symm
  | succ f ih =>
    intro cfg ver out args c' v' o' h
    cases args with
    | nil =>
      simp only [parseLoopF, Prod.mk.injEq] at h
      exact h.2.2.1.symm
    | cons s rest =>
      simp only [parseLoopF] at h
      repeat' split at h
      all_goals
        first
        | exact ih _ _ _ _ _ _ _ h
        | exact (congrArg (fun q => q.2.2.1) h).symm
        | exact FlagOutcome.noConfusion (congrArg (fun q => q.2.2.2) h)

/-- C10. For every initial value of the configuration target and all
inputs, either Parse leaves the target exactly as it was (help path,
version path, any error path, nil target), or the target was a value, the
marshalling succeeded, the decoder succeeded on the trimmed substituted
resolved configuration string, and Parse returned empty text, no error and
exactly the decoded value: the target is only ever written by the final
successful decode of the configuration-parsing path. -/
theorem c10_target_written_only_by_decode {α : Type} (env : String → Option String)
    (args : List String) (marshal : α → Except String String)
    (unmarshal : String → α → Except String α) (envVarPfx desc : String)
    (info : Option ReleaseInfo) (conf : Option α) :
    (Parse env args marshal unmarshal envVarPfx desc info conf).2.2 = conf ∨
    (∃ (c : α) (confRef : String) (v : α),
      conf = some c ∧ marshal c = Except.ok confRef ∧
      unmarshal (goTrimSpace (substPlaceholders env (normalizePrefix envVarPfx)
        (parseFlags env (normalizePrefix envVarPfx) confRef args).1)) c = Except.ok v ∧
      Parse env args marshal unmarshal envVarPfx desc info conf = ("", none, some v)) := by
  by_cases hq : envVarPrefixMatch envVarPfx = true
  · cases conf with
    | none =>
      left
      rcases hp : parseFlags env (normalizePrefix envVarPfx) "null" args with ⟨cfg, ver, out, oc⟩
      cases oc with
      | help => simp [Parse, hq, hp]
      | err e => simp [Parse, hq, hp]
      | ok =>
        cases ver with
        | true => simp [Parse, hq, hp]
        | false => simp [Parse, hq, hp]
    | some c =>
      rcases hm : marshal c with e | confRef
      · left
        simp [Parse, hq, hm]
      · rcases hp : parseFlags env (normalizePrefix envVarPfx) confRef args with ⟨cfg, ver, out, oc⟩
        have hp2 := hp
        simp only [parseFlags] at hp2
        cases oc with
        | help => left; simp [Parse, hq, hm, hp]
        | err e => left; simp [Parse, hq, hm, hp]
        | ok =>
          have hout : out = "" := parseLoopF_ok_out _ _ _ _ _ _ _ _ _ hp2
          subst hout
          cases ver with
          | true => left; simp [Parse, hq, hm, hp]
          | false =>
            rcases hu : unmarshal (goTrimSpace (substPlaceholders env (normalizePrefix envVarPfx)
                cfg)) c with e | v
            · left
              simp [Parse, hq, hm, hp, hu]
            · right
              refine ⟨c, confRef, v, rfl, hm, ?_, ?_⟩
              · rw [hp]
                exact hu
              · simp [Parse, hq, hm, hp, hu]
  · left
    simp [Parse, hq]

end Config
